import Mathlib

set_option autoImplicit false

/-!
Shallow embedding of the BDD engine and clause-sharing layer of the
CDCL-support-by-BDD-methods repository.

The embedding follows `src/bdd.rs` (diagram type, constructors, negate,
the iterative `apply` worklist algorithm, `solve`, the `PartialEq`
implementation), `src/sharing/clause_database.rs` (the two-filter clause
deduplication) and `src/sharing/clause_gen.rs` (learned-clause
construction).  Rust `HashMap`s that are used only through `get`/`insert`
are modelled as association lists; the variable ordering
`HashMap<i32, usize>` is modelled as a function `Int -> Option Nat`;
code that can panic (slice indexing, `Option::unwrap`) is modelled with
`Option`/explicit panic results.
-/

/-- Modelled from the spec: the module `bdd_util` (types `BddVar`,
`BddPointer`, `BddNode`) is declared in `lib.rs` but its source file is
not present.  Per the spec, a variable is an integer identifier plus a
numeric score, and the distinguished sentinel value (maximum integer,
`i32::MAX`) is reserved for terminal nodes.  Only equality of scores is
ever consulted by the embedded code, so the score is kept as an
integer. -/
structure BddVar where
  name : Int
  score : Int
deriving DecidableEq, Repr

/-- The `i32::MAX` sentinel identifier reserved for terminal nodes. -/
def sentinelName : Int := 2147483647

/-- The sentinel variable `BddVar::new(i32::MAX, 0.0)`. -/
def sentinelVar : BddVar := ⟨sentinelName, 0⟩

/-- Modelled from the spec: a pointer is a non-negative index into a
diagram's node array; index 0 is the FALSE terminal, index 1 the TRUE
terminal. -/
structure BddPointer where
  index : Nat
deriving DecidableEq, Repr

def BddPointer.newZero : BddPointer := ⟨0⟩

def BddPointer.newOne : BddPointer := ⟨1⟩

def BddPointer.toIndex (p : BddPointer) : Nat := p.index

def BddPointer.isZero (p : BddPointer) : Bool := p.index == 0

def BddPointer.isOne (p : BddPointer) : Bool := p.index == 1

def BddPointer.isTerminal (p : BddPointer) : Bool := p.index == 0 || p.index == 1

/-- Terminal pointers carry a truth value; internal pointers do not. -/
def BddPointer.asBool (p : BddPointer) : Option Bool :=
  if p.index = 0 then some false else if p.index = 1 then some true else none

def BddPointer.fromBool (b : Bool) : BddPointer := if b then ⟨1⟩ else ⟨0⟩

/-- Swap the two terminal indices, leave internal pointers alone. -/
def BddPointer.flipIfTerminal (p : BddPointer) : BddPointer :=
  if p.index = 0 then ⟨1⟩ else if p.index = 1 then ⟨0⟩ else p

/-- Modelled from the spec: a node is a variable together with low/high
cofactor pointers; the arena's two fixed terminal entries are the usual
self-linked terminal nodes of the arena representation (the FALSE
terminal links to index 0, the TRUE terminal to index 1). -/
structure BddNode where
  var : BddVar
  low : BddPointer
  high : BddPointer
deriving DecidableEq, Repr

def BddNode.mkZero (v : BddVar) : BddNode := ⟨v, ⟨0⟩, ⟨0⟩⟩

def BddNode.mkOne (v : BddVar) : BddNode := ⟨v, ⟨1⟩, ⟨1⟩⟩

def BddNode.mkNode (v : BddVar) (low high : BddPointer) : BddNode := ⟨v, low, high⟩

/-- `pub struct Bdd(pub Vec<BddNode>)`. -/
structure Bdd where
  nodes : List BddNode
deriving DecidableEq, Repr

/-- `Bdd::new`: the two terminal nodes, with the sentinel variable. -/
def Bdd.new : Bdd := ⟨[BddNode.mkZero sentinelVar, BddNode.mkOne sentinelVar]⟩

/-- `Bdd::push_node`. -/
def Bdd.pushNode (b : Bdd) (n : BddNode) : Bdd := ⟨b.nodes ++ [n]⟩

/-- `Bdd::size`. -/
def Bdd.size (b : Bdd) : Nat := b.nodes.length

/-- `Bdd::is_true`: length exactly 2. -/
def Bdd.isTrue (b : Bdd) : Bool := b.size == 2

/-- `Bdd::is_false`: length exactly 1. -/
def Bdd.isFalse (b : Bdd) : Bool := b.size == 1

/-- `Bdd::var_of_ptr`; the Rust indexing `self.0[ptr.to_index()]` panics
out of bounds, modelled by `none`. -/
def Bdd.varOfPtr (b : Bdd) (p : BddPointer) : Option BddVar :=
  (b.nodes.get? p.toIndex).map (fun n => n.var)

/-- `Bdd::low_node_ptr`. -/
def Bdd.lowNodePtr (b : Bdd) (p : BddPointer) : Option BddPointer :=
  (b.nodes.get? p.toIndex).map (fun n => n.low)

/-- `Bdd::high_node_ptr`. -/
def Bdd.highNodePtr (b : Bdd) (p : BddPointer) : Option BddPointer :=
  (b.nodes.get? p.toIndex).map (fun n => n.high)

/-- `Bdd::root_pointer`. -/
def Bdd.rootPointer (b : Bdd) : BddPointer :=
  if b.isFalse then ⟨0⟩ else if b.isTrue then ⟨1⟩ else ⟨b.size - 1⟩

/-- `Bdd::new_var`. -/
def Bdd.newVar (v : BddVar) : Bdd :=
  Bdd.new.pushNode (BddNode.mkNode v ⟨0⟩ ⟨1⟩)

/-- `Bdd::new_not_var`. -/
def Bdd.newNotVar (v : BddVar) : Bdd :=
  Bdd.new.pushNode (BddNode.mkNode v ⟨1⟩ ⟨0⟩)

/-- `Bdd::new_false`. -/
def Bdd.newFalse (v : BddVar) : Bdd :=
  Bdd.new.pushNode (BddNode.mkZero v)

/-- `Bdd::new_true`. -/
def Bdd.newTrue (v : BddVar) : Bdd :=
  (Bdd.new.pushNode (BddNode.mkZero v)).pushNode (BddNode.mkOne v)

/-- `Bdd::new_value`. -/
def Bdd.newValue (v : BddVar) (value : Bool) : Bdd :=
  if value then Bdd.newTrue v else Bdd.newFalse v

/-- The loop body of `Bdd::negate`: flip the terminal references of one
node. -/
def BddNode.flipTerminals (n : BddNode) : BddNode :=
  ⟨n.var, n.low.flipIfTerminal, n.high.flipIfTerminal⟩

/-- `Bdd::negate`: constant diagrams map to the complementary constant
constructor; otherwise every node past the two terminal slots has its
terminal references flipped. -/
def Bdd.negate (b : Bdd) : Bdd :=
  if b.isTrue then Bdd.newFalse sentinelVar
  else if b.isFalse then Bdd.newTrue sentinelVar
  else ⟨b.nodes.take 2 ++ (b.nodes.drop 2).map BddNode.flipTerminals⟩

/-- `impl PartialEq for Bdd`: equal sizes plus mutual containment of the
node arrays. -/
def Bdd.eqBdd (a b : Bdd) : Bool :=
  (a.size == b.size) && a.nodes.all (fun x => b.nodes.contains x)
    && b.nodes.all (fun y => a.nodes.contains y)

/-- `bool_expr::and`, the partial three-valued AND. -/
def boolExprAnd (l r : Option Bool) : Option Bool :=
  match l, r with
  | some true, some true => some true
  | some false, _ => some false
  | _, some false => some false
  | _, _ => none

/-- `bool_expr::or`, the partial three-valued OR. -/
def boolExprOr (l r : Option Bool) : Option Bool :=
  match l, r with
  | some false, some false => some false
  | some true, _ => some true
  | _, some true => some true
  | _, _ => none

/-- The `Task` struct of `Bdd::apply`: a pair of pointers into the left
and right diagrams. -/
structure ApplyTask where
  left : BddPointer
  right : BddPointer
deriving DecidableEq, Repr

/-- The mutable locals of the `Bdd::apply` worklist loop: the task
stack (head is the top of the stack), the finished-task table, the
hash-consing node table, and the output diagram under construction.
The two Rust `HashMap`s are used only through `get`/`insert` of fresh
keys, so association lists with first-match lookup model them
exactly. -/
structure ApplyState where
  stack : List ApplyTask
  finished : List (ApplyTask × BddPointer)
  nodesMap : List (BddNode × BddPointer)
  out : Bdd
deriving Repr

/-- Decomposition of the task at the top of the stack: fetch the two
nodes, look their variables up in the ordering, pick the governing
variable and produce the two sub-tasks together with the governing
variable.  `none` models the panic of an out-of-bounds index or of the
`ordering.get(..).unwrap()` calls. -/
def taskSubs (selfB otherB : Bdd) (ordering : Int → Option Nat) (t : ApplyTask) :
    Option (ApplyTask × ApplyTask × BddVar) :=
  match selfB.nodes.get? t.left.toIndex, otherB.nodes.get? t.right.toIndex with
  | some lNode, some rNode =>
    match ordering lNode.var.name, ordering rNode.var.name with
    | some lVarIndex, some rVarIndex =>
      let minVar := if lVarIndex < rVarIndex then lNode.var else rNode.var
      let lLow := if lNode.var = minVar then lNode.low else t.left
      let lHigh := if lNode.var = minVar then lNode.high else t.left
      let rLow :=
        if lNode.var = rNode.var ∨ rNode.var = minVar then rNode.low else t.right
      let rHigh :=
        if lNode.var = rNode.var ∨ rNode.var = minVar then rNode.high else t.right
      some (⟨lLow, rLow⟩, ⟨lHigh, rHigh⟩, minVar)
    | _, _ => none
  | _, _ => none

/-- The value of `new_low`/`new_high` in `Bdd::apply`: the operator on
the two terminal truth values, or else the finished-task table. -/
def subResult (op : Option Bool → Option Bool → Option Bool)
    (finished : List (ApplyTask × BddPointer)) (sub : ApplyTask) : Option BddPointer :=
  match op sub.left.asBool sub.right.asBool with
  | some value => some (BddPointer.fromBool value)
  | none => finished.lookup sub

/-- Result of one iteration of the `while let Some(current) = stack.last()`
loop of `Bdd::apply`. -/
inductive StepRes where
  | done : StepRes
  | panicked : StepRes
  | next : ApplyState → StepRes

/-- One iteration of the `Bdd::apply` worklist loop. -/
def applyStep (selfB otherB : Bdd) (op : Option Bool → Option Bool → Option Bool)
    (ordering : Int → Option Nat) (st : ApplyState) : StepRes :=
  match st.stack with
  | [] => .done
  | current :: rest =>
    if (st.finished.lookup current).isSome then
      .next { st with stack := rest }
    else
      match taskSubs selfB otherB ordering current with
      | none => .panicked
      | some (subLeft, subRight, minVar) =>
        match subResult op st.finished subLeft, subResult op st.finished subRight with
        | some newLow, some newHigh =>
          if newLow = newHigh then
            .next { st with stack := rest, finished := (current, newLow) :: st.finished }
          else
            let node := BddNode.mkNode minVar newLow newHigh
            match st.nodesMap.lookup node with
            | some idx =>
              .next { st with stack := rest, finished := (current, idx) :: st.finished }
            | none =>
              let out2 := st.out.pushNode node
              .next { st with
                      stack := rest
                      finished := (current, out2.rootPointer) :: st.finished
                      nodesMap := (node, out2.rootPointer) :: st.nodesMap
                      out := out2 }
        | newLow, newHigh =>
          let stack1 := if newLow = none then subLeft :: current :: rest else current :: rest
          let stack2 := if newHigh = none then subRight :: stack1 else stack1
          .next { st with stack := stack2 }

/-- Outcome of running the loop with a given amount of fuel. -/
inductive ApplyRunRes where
  | finished : Bdd → ApplyRunRes
  | panicked : ApplyRunRes
  | fuelOut : ApplyRunRes
deriving DecidableEq, Repr

/-- Run the `Bdd::apply` loop until the stack is empty, a panic occurs
or the fuel runs out. -/
def applyRun (selfB otherB : Bdd) (op : Option Bool → Option Bool → Option Bool)
    (ordering : Int → Option Nat) : Nat → ApplyState → ApplyRunRes
  | 0, _ => .fuelOut
  | fuel + 1, st =>
    match applyStep selfB otherB op ordering st with
    | .done => .finished st.out
    | .panicked => .panicked
    | .next st2 => applyRun selfB otherB op ordering fuel st2

/-- The initial state of `Bdd::apply`: output diagram `Bdd::new()`, the
hash-consing table seeded with the two terminal triples, the finished
table empty, and the root pair on the stack. -/
def applyInit (selfB otherB : Bdd) : ApplyState :=
  { stack := [⟨selfB.rootPointer, otherB.rootPointer⟩],
    finished := [],
    nodesMap := [(BddNode.mkZero sentinelVar, ⟨0⟩), (BddNode.mkOne sentinelVar, ⟨1⟩)],
    out := Bdd.new }

/-- `Bdd::apply` as a fuelled run from the initial state. -/
def Bdd.applyFuel (selfB otherB : Bdd) (op : Option Bool → Option Bool → Option Bool)
    (ordering : Int → Option Nat) (fuel : Nat) : ApplyRunRes :=
  applyRun selfB otherB op ordering fuel (applyInit selfB otherB)

/-- `Bdd::and` (fuelled). -/
def Bdd.andFuel (selfB otherB : Bdd) (ordering : Int → Option Nat) (fuel : Nat) :
    ApplyRunRes :=
  Bdd.applyFuel selfB otherB boolExprAnd ordering fuel

/-- `Bdd::or` (fuelled). -/
def Bdd.orFuel (selfB otherB : Bdd) (ordering : Int → Option Nat) (fuel : Nat) :
    ApplyRunRes :=
  Bdd.applyFuel selfB otherB boolExprOr ordering fuel

/-- `HashMap::insert` for the satisfying assignment of `Bdd::solve`. -/
def assignInsert (m : List (Int × Bool)) (k : Int) (v : Bool) : List (Int × Bool) :=
  (k, v) :: m.filter (fun p => p.1 != k)

/-- `Bdd::solve`: search backwards from the TRUE terminal for a
satisfying assignment; error out when the diagram is recognized as
constant FALSE.  The `variables` argument is used in Rust only to size
the hash map. -/
def Bdd.solve (b : Bdd) (varsList : List BddVar) : Except String (List (Int × Bool)) :=
  if b.isFalse then .error "The problem is not solvable!"
  else
    let step := fun (acc : List (Int × Bool) × BddPointer) (i : Nat) =>
      let ptr : BddPointer := ⟨i⟩
      if ptr.isTerminal then acc
      else
        let acc1 :=
          if b.lowNodePtr ptr == some acc.2 then
            match b.varOfPtr ptr with
            | some v => (assignInsert acc.1 v.name false, ptr)
            | none => acc
          else acc
        if b.highNodePtr ptr == some acc1.2 then
          match b.varOfPtr ptr with
          | some v => (assignInsert acc1.1 v.name true, ptr)
          | none => acc1
        else acc1
    let _capacity := varsList.length
    let res := (List.range b.size).foldl step ([], ⟨1⟩)
    .ok res.1

/-- The two probabilistic membership filters of
`src/sharing/clause_database.rs`.  The third-party Bloom filters are
idealized as exact sets of the inserted literals (a Bloom filter has no
false negatives; its false positives are not modelled). -/
structure ClauseDatabase where
  globalFilter : List Int
  localFilter : List Int
deriving DecidableEq, Repr

/-- `ClauseDatabase::new`: both filters empty. -/
def ClauseDatabase.new : ClauseDatabase := ⟨[], []⟩

/-- `insert_to_local_filter`: insert every literal of the clause. -/
def ClauseDatabase.insertToLocalFilter (db : ClauseDatabase) (clause : List Int) :
    ClauseDatabase :=
  { db with localFilter := clause.foldl (fun f i => i :: f) db.localFilter }

/-- `insert_to_global_filter`: insert every literal of the clause. -/
def ClauseDatabase.insertToGlobalFilter (db : ClauseDatabase) (clause : List Int) :
    ClauseDatabase :=
  { db with globalFilter := clause.foldl (fun f i => i :: f) db.globalFilter }

/-- `local_filter_contains`: every literal individually contained. -/
def ClauseDatabase.localFilterContains (db : ClauseDatabase) (clause : List Int) : Bool :=
  clause.all (fun i => db.localFilter.contains i)

/-- `global_filter_contains`: every literal individually contained. -/
def ClauseDatabase.globalFilterContains (db : ClauseDatabase) (clause : List Int) : Bool :=
  clause.all (fun i => db.globalFilter.contains i)

/-- `reset_global_filter`. -/
def ClauseDatabase.resetGlobalFilter (db : ClauseDatabase) : ClauseDatabase :=
  { db with globalFilter := [] }

/-- `reset_local_filter`. -/
def ClauseDatabase.resetLocalFilter (db : ClauseDatabase) : ClauseDatabase :=
  { db with localFilter := [] }

/-- `ClauseDatabase::filter_clause`: consult and update the global
filter, then the local filter; `&mut self` is modelled by returning the
updated database next to the result, and the two `anyhow` error strings
are kept without the interpolated clause (and without the contraction
in "didn't"). -/
def ClauseDatabase.filterClause (db : ClauseDatabase) (clause : List Int) :
    Except String (List Int) × ClauseDatabase :=
  if !(db.globalFilterContains clause) then
    let db1 := db.insertToGlobalFilter clause
    if !(db1.localFilterContains clause) then
      (.ok clause, db1.insertToLocalFilter clause)
    else
      (.error "Clause did not pass the local filter", db1)
  else
    (.error "Clause did not pass the global filter", db)

/-- The loop body of `get_filtered_clauses`: push a clause that passes
`filter_clause`, drop one that does not. -/
def filterStep (acc : List (List Int) × ClauseDatabase) (clause : List Int) :
    List (List Int) × ClauseDatabase :=
  match acc.2.filterClause clause with
  | (.ok filtered, db2) => (acc.1 ++ [filtered], db2)
  | (.error _, db2) => (acc.1, db2)

/-- `ClauseDatabase::get_filtered_clauses`: reset the local filter, then
forward the clauses that pass `filter_clause`. -/
def ClauseDatabase.getFilteredClauses (db : ClauseDatabase)
    (learnedClauses : List (List Int)) : List (List Int) × ClauseDatabase :=
  learnedClauses.foldl filterStep ([], db.resetLocalFilter)

/-- One clause of `Bdd::build_learned_clause`: walk the accumulated path
in reverse and push one literal per step; `var_of_ptr` panics (modelled
by `none`) on an out-of-range pointer. -/
def Bdd.buildOneClause (b : Bdd) (conflictPath : List (Bool × BddPointer)) :
    Option (List Int) :=
  conflictPath.reverse.foldlM
    (fun acc step =>
      match b.varOfPtr step.2 with
      | some v => some (acc ++ [if step.1 then v.name else -v.name])
      | none => none)
    []

/-- `Bdd::build_learned_clause`: one learned clause per conflict path. -/
def Bdd.buildLearnedClause (b : Bdd) (conflictPaths : List (List (Bool × BddPointer))) :
    Option (List (List Int)) :=
  conflictPaths.foldlM
    (fun acc path => (b.buildOneClause path).map (fun c => acc ++ [c]))
    []

/-- An ordering for the single variable 1, ranking it above the
sentinel, as the ordering builder produces. -/
def orderingX : Int → Option Nat :=
  fun n => if n = 1 then some 0 else if n = sentinelName then some 1 else none

/-- The literal contributed by one (polarity, pointer) step of a
conflict path: the unnegated variable id of the pointed-to node for a
high (true) step, the negated id for a low (false) step.  The default 0
is never reached for in-bounds pointers. -/
def stepLiteral (b : Bdd) (step : Bool × BddPointer) : Int :=
  match b.varOfPtr step.2 with
  | some v => if step.1 then v.name else -v.name
  | none => 0

/-- No internal node (index at least 2) of the diagram has equal low and
high pointers. -/
def ReducedInternal (b : Bdd) : Prop :=
  ∀ i n, 2 ≤ i → b.nodes.get? i = some n → n.low ≠ n.high

/-- The ordering used by the C8 counterexample: it ranks the terminal
sentinel first (rank 0), above all proper variables; every lookup the
run performs succeeds. -/
def orderingSentinelFirst : Int → Option Nat :=
  fun n =>
    if n = sentinelName then some 0
    else if n = 1 then some 1 else if n = 2 then some 2 else none

/-- Well-formedness of a diagram arena as produced by the library's
constructors: the two fixed terminal slots hold the sentinel terminal
nodes, and every internal node points strictly downwards (children were
appended before their parents). -/
def WfDiagram (b : Bdd) : Prop :=
  b.nodes.get? 0 = some (BddNode.mkZero sentinelVar) ∧
    b.nodes.get? 1 = some (BddNode.mkOne sentinelVar) ∧
    ∀ i n, b.nodes.get? i = some n → 2 ≤ i →
      n.low.index < i ∧ n.high.index < i

/-- The ordering ranks every internal-node variable of the diagram
strictly above (smaller rank than) the rank `s`. -/
def OrderingBelow (ordering : Int → Option Nat) (s : Nat) (b : Bdd) : Prop :=
  ∀ i n, b.nodes.get? i = some n → 2 ≤ i →
    ∃ r, ordering n.var.name = some r ∧ r < s

/-- Both pointers of a task are in bounds of their diagrams. -/
def TaskOK (selfB otherB : Bdd) (t : ApplyTask) : Prop :=
  t.left.index < selfB.nodes.length ∧ t.right.index < otherB.nodes.length

/-- Termination measure of a task. -/
def taskRank (t : ApplyTask) : Nat := t.left.index + t.right.index

/-- Iterate `applyStep` a given number of times; `none` when the loop
exits (or panics) strictly before the last iteration. -/
def stepIter (selfB otherB : Bdd) (op : Option Bool → Option Bool → Option Bool)
    (ordering : Int → Option Nat) : Nat → ApplyState → Option ApplyState
  | 0, st => some st
  | k + 1, st =>
    match applyStep selfB otherB op ordering st with
    | .next st2 => stepIter selfB otherB op ordering k st2
    | _ => none

/-- The finished-task table only ever gains entries. -/
def FinishedMono (f g : List (ApplyTask × BddPointer)) : Prop :=
  ∀ t v, f.lookup t = some v → g.lookup t = some v

/-- Executable check for `WfDiagram`, for concrete diagrams. -/
def wfDiagramCheck (b : Bdd) : Bool :=
  (b.nodes.get? 0 == some (BddNode.mkZero sentinelVar)) &&
    (b.nodes.get? 1 == some (BddNode.mkOne sentinelVar)) &&
    (List.range b.nodes.length).all (fun i =>
      if 2 ≤ i then
        match b.nodes.get? i with
        | some n => decide (n.low.index < i) && decide (n.high.index < i)
        | none => true
      else true)

/-- Executable check for `OrderingBelow`, for concrete diagrams. -/
def orderingBelowCheck (ordering : Int → Option Nat) (s : Nat) (b : Bdd) : Bool :=
  (List.range b.nodes.length).all (fun i =>
    if 2 ≤ i then
      match b.nodes.get? i with
      | some n =>
        match ordering n.var.name with
        | some r => decide (r < s)
        | none => false
      | none => true
    else true)

/-- C1: evaluation of the code on the spec's sample scenario 2.  ANDing
the diagram for the clause `[x]` with the diagram for `[¬x]` under an
ordering containing `x` returns the two-node base diagram: its node
array has length 2 (not 1), `is_false` is false (while `is_true` is
true), and `solve` returns `Ok` with the empty assignment instead of the
"unsatisfiable" error.  The root task's FALSE result pointer is computed
but discarded, so `apply` can never return the length-1 constant-FALSE
diagram that `is_false` recognizes. -/
theorem c1_and_x_notx_eval :
    Bdd.andFuel (Bdd.newVar ⟨1, 0⟩) (Bdd.newNotVar ⟨1, 0⟩) orderingX 3 =
        ApplyRunRes.finished Bdd.new ∧
      Bdd.new.size = 2 ∧
      Bdd.new.isFalse = false ∧
      Bdd.new.isTrue = true ∧
      Bdd.new.solve [⟨1, 0⟩] = Except.ok [] := by
  refine ⟨by decide, by decide, by decide, by decide, rfl⟩

/-- C2: evaluation of the code on an ordering that lacks an entry for a
variable appearing in a diagram node.  The very first loop iteration of
`apply` hits `ordering.get(&l_var.name).unwrap()` on `None` and panics,
for every amount of fuel; there is no fallback to a lowest priority. -/
theorem c2_apply_missing_ordering_panics (fuel : Nat) :
    Bdd.applyFuel (Bdd.newVar ⟨1, 0⟩) (Bdd.newVar ⟨1, 0⟩) boolExprAnd
        (fun _ => none) (fuel + 1) =
      ApplyRunRes.panicked := by
  rfl

/-- C3: evaluation of the constant constructors.  `new_false` pushes its
zero node on top of the two terminal slots of `Bdd::new()`, producing a
length-3 array whose root pointer is the internal index 2, so `is_false`
(length = 1) rejects it; symmetrically `new_true` produces a length-4
array rejected by `is_true` (length = 2). -/
theorem c3_constant_constructors_eval :
    (Bdd.newFalse ⟨5, 0⟩).size = 3 ∧
      (Bdd.newFalse ⟨5, 0⟩).isFalse = false ∧
      (Bdd.newFalse ⟨5, 0⟩).rootPointer = ⟨2⟩ ∧
      (Bdd.newTrue ⟨5, 0⟩).size = 4 ∧
      (Bdd.newTrue ⟨5, 0⟩).isTrue = false ∧
      (Bdd.newTrue ⟨5, 0⟩).rootPointer = ⟨3⟩ := by
  refine ⟨by decide, by decide, by decide, by decide, by decide, by decide⟩

theorem flipIfTerminal_flipIfTerminal (p : BddPointer) :
    p.flipIfTerminal.flipIfTerminal = p := by
  rcases p with ⟨i⟩
  unfold BddPointer.flipIfTerminal
  by_cases h0 : i = 0
  · simp [h0]
  · by_cases h1 : i = 1
    · simp [h0, h1]
    · simp [h0, h1]

theorem flipTerminals_flipTerminals (n : BddNode) :
    n.flipTerminals.flipTerminals = n := by
  rcases n with ⟨v, l, h⟩
  simp [BddNode.flipTerminals, flipIfTerminal_flipIfTerminal]

theorem map_flipTerminals_map_flipTerminals (l : List BddNode) :
    (l.map BddNode.flipTerminals).map BddNode.flipTerminals = l := by
  induction l with
  | nil => rfl
  | cons n rest ih => simp [flipTerminals_flipTerminals, ih]

theorem eqBdd_refl (b : Bdd) : Bdd.eqBdd b b = true := by
  simp [Bdd.eqBdd, List.all_eq_true, List.contains]

/-- C6 counterexample: at the two-node base diagram (recognized by
`is_true`), `negate` returns `new_false(sentinel)` of length 3, and
negating that again flips its third node into a one-node, yielding a
length-3 diagram that is not node-set equal to the original length-2
diagram. -/
theorem c6_negate_negate_counterexample :
    Bdd.eqBdd Bdd.new.negate.negate Bdd.new = false ∧ Bdd.new.negate.negate ≠ Bdd.new := by
  refine ⟨by decide, by decide⟩

/-- C6 amended: for every diagram with at least 3 nodes (every diagram
not recognized as constant by `is_true`/`is_false`, which is preserved
by `negate`), double negation returns the identical node array, hence a
node-set equal diagram.  For the degenerate length-1/length-2 diagrams
`negate` answers with the `new_true`/`new_false` constructors, whose
output (lengths 4 and 3) is not recognized as constant, so double
negation does not return to the original diagram there. -/
theorem negate_nodes_of_nonconstant (l : List BddNode) (h : 3 ≤ l.length) :
    Bdd.negate ⟨l⟩ = ⟨l.take 2 ++ (l.drop 2).map BddNode.flipTerminals⟩ := by
  have h2 : (l.length == 2) = false := by
    simp
    omega
  have h1 : (l.length == 1) = false := by
    simp
    omega
  simp [Bdd.negate, Bdd.isTrue, Bdd.isFalse, Bdd.size, h1, h2]

theorem c6_negate_negate_of_nonconstant (d : Bdd) (h3 : 3 ≤ d.size) :
    d.negate.negate = d ∧ Bdd.eqBdd d.negate.negate d = true := by
  obtain ⟨l⟩ := d
  have hlen : 3 ≤ l.length := h3
  have htk : (l.take 2).length = 2 := by
    simp
    omega
  have hneg1 : Bdd.negate ⟨l⟩ = ⟨l.take 2 ++ (l.drop 2).map BddNode.flipTerminals⟩ :=
    negate_nodes_of_nonconstant l hlen
  have hlen2 : (l.take 2 ++ (l.drop 2).map BddNode.flipTerminals).length = l.length := by
    simp
    omega
  have hneg2 : Bdd.negate ⟨l.take 2 ++ (l.drop 2).map BddNode.flipTerminals⟩ =
      ⟨(l.take 2 ++ (l.drop 2).map BddNode.flipTerminals).take 2 ++
        ((l.take 2 ++ (l.drop 2).map BddNode.flipTerminals).drop 2).map
          BddNode.flipTerminals⟩ :=
    negate_nodes_of_nonconstant _ (by rw [hlen2]; exact hlen)
  have h1 : ((l.take 2 ++ (l.drop 2).map BddNode.flipTerminals).take 2) = l.take 2 :=
    List.take_left' htk
  have h2 : ((l.take 2 ++ (l.drop 2).map BddNode.flipTerminals).drop 2) =
      (l.drop 2).map BddNode.flipTerminals :=
    List.drop_left' htk
  have heq : (Bdd.mk l).negate.negate = ⟨l⟩ := by
    rw [hneg1, hneg2, h1, h2, map_flipTerminals_map_flipTerminals, List.take_append_drop]
  exact ⟨heq, by rw [heq]; exact eqBdd_refl ⟨l⟩⟩

/-- C6 witness: the single-variable diagram has 3 nodes and double
negation is the identity on it. -/
theorem c6_negate_negate_witness :
    3 ≤ (Bdd.newVar ⟨1, 0⟩).size ∧
      ((Bdd.newVar ⟨1, 0⟩).negate.negate = Bdd.newVar ⟨1, 0⟩ ∧
        Bdd.eqBdd (Bdd.newVar ⟨1, 0⟩).negate.negate (Bdd.newVar ⟨1, 0⟩) = true) :=
  ⟨by decide, c6_negate_negate_of_nonconstant (Bdd.newVar ⟨1, 0⟩) (by decide)⟩

/-- C7 counterexample: the arrays `[zero, zero, one]` and
`[zero, one, one]` have equal length and mutually contain each other's
nodes, so `PartialEq` accepts them, yet they are not equal as multisets
(the zero node occurs twice in one and once in the other). -/
theorem c7_eq_multiset_counterexample :
    Bdd.eqBdd ⟨[BddNode.mkZero ⟨1, 0⟩, BddNode.mkZero ⟨1, 0⟩, BddNode.mkOne ⟨1, 0⟩]⟩
        ⟨[BddNode.mkZero ⟨1, 0⟩, BddNode.mkOne ⟨1, 0⟩, BddNode.mkOne ⟨1, 0⟩]⟩ = true ∧
      ¬ List.Perm [BddNode.mkZero ⟨1, 0⟩, BddNode.mkZero ⟨1, 0⟩, BddNode.mkOne ⟨1, 0⟩]
          [BddNode.mkZero ⟨1, 0⟩, BddNode.mkOne ⟨1, 0⟩, BddNode.mkOne ⟨1, 0⟩] := by
  refine ⟨by decide, by decide⟩

/-- C7 amended: the equality predicate on diagrams holds exactly when
the node arrays have equal length and the same set of nodes (each node
of one occurs in the other), independent of array order; equality of
the arrays as multisets (a permutation) is sufficient but, by the
counterexample, not necessary. -/
theorem c7_eq_characterization (a b : Bdd) :
    (Bdd.eqBdd a b = true ↔
        a.nodes.length = b.nodes.length ∧
          (∀ n ∈ a.nodes, n ∈ b.nodes) ∧ (∀ n ∈ b.nodes, n ∈ a.nodes)) ∧
      (a.nodes.Perm b.nodes → Bdd.eqBdd a b = true) := by
  constructor
  · simp [Bdd.eqBdd, Bdd.size, List.all_eq_true, List.contains, and_assoc]
  · intro hp
    simp [Bdd.eqBdd, Bdd.size, List.all_eq_true, List.contains]
    refine ⟨⟨hp.length_eq, fun n hn => (hp.mem_iff).1 hn⟩, fun n hn => (hp.mem_iff).2 hn⟩

/-- C7 witness: a permuted two-node array is accepted by the equality
predicate. -/
theorem c7_eq_characterization_witness :
    Bdd.eqBdd ⟨[BddNode.mkZero ⟨1, 0⟩, BddNode.mkOne ⟨1, 0⟩]⟩
        ⟨[BddNode.mkOne ⟨1, 0⟩, BddNode.mkZero ⟨1, 0⟩]⟩ = true :=
  (c7_eq_characterization ⟨[BddNode.mkZero ⟨1, 0⟩, BddNode.mkOne ⟨1, 0⟩]⟩
      ⟨[BddNode.mkOne ⟨1, 0⟩, BddNode.mkZero ⟨1, 0⟩]⟩).2 (by decide)

theorem mem_foldl_cons (c g : List Int) (x : Int) :
    x ∈ c.foldl (fun f i => i :: f) g ↔ x ∈ g ∨ x ∈ c := by
  induction c generalizing g with
  | nil => simp
  | cons a t ih =>
    simp only [List.foldl_cons, ih, List.mem_cons]
    tauto

theorem globalFilterContains_iff (db : ClauseDatabase) (c : List Int) :
    db.globalFilterContains c = true ↔ ∀ l ∈ c, l ∈ db.globalFilter := by
  simp [ClauseDatabase.globalFilterContains, List.all_eq_true, List.contains]

theorem localFilterContains_iff (db : ClauseDatabase) (c : List Int) :
    db.localFilterContains c = true ↔ ∀ l ∈ c, l ∈ db.localFilter := by
  simp [ClauseDatabase.localFilterContains, List.all_eq_true, List.contains]

theorem globalFilterContains_of_subset (db db2 : ClauseDatabase) (c : List Int)
    (hsub : ∀ x, x ∈ db.globalFilter → x ∈ db2.globalFilter)
    (h : db.globalFilterContains c = true) : db2.globalFilterContains c = true := by
  rw [globalFilterContains_iff] at h ⊢
  exact fun l hl => hsub l (h l hl)

theorem insertToGlobalFilter_contains (db : ClauseDatabase) (c : List Int) :
    (db.insertToGlobalFilter c).globalFilterContains c = true := by
  rw [globalFilterContains_iff]
  intro l hl
  simp only [ClauseDatabase.insertToGlobalFilter]
  exact (mem_foldl_cons c db.globalFilter l).2 (Or.inr hl)

theorem mem_insertToGlobalFilter (db : ClauseDatabase) (c : List Int) (x : Int) :
    x ∈ (db.insertToGlobalFilter c).globalFilter ↔ x ∈ db.globalFilter ∨ x ∈ c :=
  mem_foldl_cons c db.globalFilter x

theorem filterClause_cases (db : ClauseDatabase) (c : List Int) :
    (db.globalFilterContains c = true ∧
        db.filterClause c = (.error "Clause did not pass the global filter", db)) ∨
      (db.globalFilterContains c = false ∧
        (db.insertToGlobalFilter c).localFilterContains c = true ∧
        db.filterClause c =
          (.error "Clause did not pass the local filter", db.insertToGlobalFilter c)) ∨
      (db.globalFilterContains c = false ∧
        (db.insertToGlobalFilter c).localFilterContains c = false ∧
        db.filterClause c = (.ok c, (db.insertToGlobalFilter c).insertToLocalFilter c)) := by
  by_cases hg : db.globalFilterContains c = true
  · exact Or.inl ⟨hg, by unfold ClauseDatabase.filterClause; rw [hg]; rfl⟩
  · have hg2 : db.globalFilterContains c = false := by
      simpa using hg
    by_cases hl : (db.insertToGlobalFilter c).localFilterContains c = true
    · refine Or.inr (Or.inl ⟨hg2, hl, ?_⟩)
      unfold ClauseDatabase.filterClause
      rw [hg2]
      simp only [Bool.not_false, if_true]
      rw [hl]
      rfl
    · have hl2 : (db.insertToGlobalFilter c).localFilterContains c = false := by
        simpa using hl
      refine Or.inr (Or.inr ⟨hg2, hl2, ?_⟩)
      unfold ClauseDatabase.filterClause
      rw [hg2]
      simp only [Bool.not_false, if_true]
      rw [hl2]
      rfl

theorem filterClause_global_grows (db : ClauseDatabase) (c : List Int) :
    ∀ x, x ∈ db.globalFilter → x ∈ (db.filterClause c).2.globalFilter := by
  intro x hx
  rcases filterClause_cases db c with ⟨_, heq⟩ | ⟨_, _, heq⟩ | ⟨_, _, heq⟩ <;> rw [heq]
  · exact hx
  · exact (mem_insertToGlobalFilter db c x).2 (Or.inl hx)
  · exact (mem_insertToGlobalFilter db c x).2 (Or.inl hx)

theorem filterClause_global_contains_after (db : ClauseDatabase) (c : List Int) :
    (db.filterClause c).2.globalFilterContains c = true := by
  rcases filterClause_cases db c with ⟨hg, heq⟩ | ⟨_, _, heq⟩ | ⟨_, _, heq⟩ <;> rw [heq]
  · exact hg
  · exact insertToGlobalFilter_contains db c
  · exact insertToGlobalFilter_contains db c

theorem filterClause_error_of_global (db : ClauseDatabase) (c : List Int)
    (h : db.globalFilterContains c = true) :
    db.filterClause c = (.error "Clause did not pass the global filter", db) := by
  unfold ClauseDatabase.filterClause
  rw [h]
  rfl

theorem filterClause_ok_inversion (db : ClauseDatabase) (c v : List Int)
    (db2 : ClauseDatabase) (h : db.filterClause c = (.ok v, db2)) :
    v = c ∧ db.globalFilterContains c = false ∧ db2.globalFilterContains c = true := by
  rcases filterClause_cases db c with ⟨_, heq⟩ | ⟨_, _, heq⟩ | ⟨hg, _, heq⟩ <;>
    rw [heq] at h
  · cases h
  · cases h
  · refine ⟨(Prod.mk.injEq _ _ _ _ ▸ h).1 |> fun hh => (Except.ok.injEq _ _ ▸ hh).symm, hg, ?_⟩
    have hdb : db2 = (db.insertToGlobalFilter c).insertToLocalFilter c :=
      ((Prod.mk.injEq _ _ _ _ ▸ h).2).symm
    rw [hdb]
    exact insertToGlobalFilter_contains db c

/-- Invariant of the `get_filtered_clauses` fold: the forwarded list has
no duplicates and every forwarded clause is (as a whole) contained in
the current global filter. -/
theorem filterStep_fold_invariant (clauses : List (List Int)) :
    ∀ (fwd : List (List Int)) (db : ClauseDatabase),
      fwd.Nodup → (∀ cl ∈ fwd, db.globalFilterContains cl = true) →
      (clauses.foldl filterStep (fwd, db)).1.Nodup ∧
        ∀ cl ∈ (clauses.foldl filterStep (fwd, db)).1,
          (clauses.foldl filterStep (fwd, db)).2.globalFilterContains cl = true := by
  induction clauses with
  | nil =>
    intro fwd db h1 h2
    exact ⟨h1, h2⟩
  | cons c t ih =>
    intro fwd db h1 h2
    rw [List.foldl_cons]
    rcases hstep : db.filterClause c with ⟨res, db2⟩
    have hgrow : ∀ x, x ∈ db.globalFilter → x ∈ db2.globalFilter := by
      intro x hx
      have := filterClause_global_grows db c x hx
      rw [hstep] at this
      exact this
    have hmono : ∀ cl ∈ fwd, db2.globalFilterContains cl = true := fun cl hcl =>
      globalFilterContains_of_subset db db2 cl hgrow (h2 cl hcl)
    cases res with
    | error msg =>
      have hstep2 : filterStep (fwd, db) c = (fwd, db2) := by
        simp [filterStep, hstep]
      rw [hstep2]
      exact ih fwd db2 h1 hmono
    | ok v =>
      rcases filterClause_ok_inversion db c v db2 hstep with ⟨hv, hgf, hgc⟩
      subst hv
      have hstep2 : filterStep (fwd, db) v = (fwd ++ [v], db2) := by
        simp [filterStep, hstep]
      rw [hstep2]
      have hnotin : v ∉ fwd := by
        intro hin
        rw [h2 v hin] at hgf
        cases hgf
      have h1b : (fwd ++ [v]).Nodup := by
        rw [List.nodup_append]
        exact ⟨h1, List.nodup_singleton v, by
          intro a ha hb
          rw [List.mem_singleton] at hb
          subst hb
          exact hnotin ha⟩
      have h2b : ∀ cl ∈ fwd ++ [v], db2.globalFilterContains cl = true := by
        intro cl hcl
        rcases List.mem_append.1 hcl with hcl | hcl
        · exact hmono cl hcl
        · rw [List.mem_singleton] at hcl
          subst hcl
          exact hgc
      exact ih (fwd ++ [v]) db2 h1b h2b

/-- C4 counterexample: a fresh database forwards the clause `[1]` in the
first sharing round, but the second round (which resets the local filter
on entry) does not forward it again: the global filter, which is not
reset between rounds, rejects it. -/
theorem c4_dedup_counterexample :
    (ClauseDatabase.new.getFilteredClauses [[1]]).1 = [[1]] ∧
      ((ClauseDatabase.new.getFilteredClauses [[1]]).2.getFilteredClauses [[1]]).1 = [] := by
  refine ⟨by decide, by decide⟩

/-- C4 amended: within one sharing round (one `get_filtered_clauses`
call, which resets the local filter on entry) a clause is forwarded at
most once, and the global filter is consulted and updated before the
local one — after any submission the clause sits in the global filter,
so after a later round resets only the local filter the same clause is
rejected by the global filter rather than forwarded again; it is
forwarded again only once the global filter is also reset. -/
theorem c4_dedup_amended (db : ClauseDatabase) (clauses : List (List Int))
    (c : List Int) (hne : c ≠ []) :
    (db.getFilteredClauses clauses).1.Nodup ∧
      (db.filterClause c).2.globalFilterContains c = true ∧
      ((db.filterClause c).2.resetLocalFilter.filterClause c).1 =
        .error "Clause did not pass the global filter" ∧
      ((db.resetGlobalFilter.resetLocalFilter).filterClause c).1 = .ok c := by
  refine ⟨?_, filterClause_global_contains_after db c, ?_, ?_⟩
  · have hinv := filterStep_fold_invariant clauses [] db.resetLocalFilter
      List.nodup_nil (by intro cl hcl; cases hcl)
    rw [ClauseDatabase.getFilteredClauses]
    exact hinv.1
  · have hg : (db.filterClause c).2.resetLocalFilter.globalFilterContains c = true := by
      have h2 := filterClause_global_contains_after db c
      rw [globalFilterContains_iff] at h2 ⊢
      exact h2
    rw [filterClause_error_of_global _ c hg]
  · rcases c with _ | ⟨a, t⟩
    · cases hne rfl
    · have hg : (db.resetGlobalFilter.resetLocalFilter).globalFilterContains (a :: t) =
          false := by
        simp [ClauseDatabase.globalFilterContains, ClauseDatabase.resetGlobalFilter,
          ClauseDatabase.resetLocalFilter, List.contains]
      have hl : ((db.resetGlobalFilter.resetLocalFilter).insertToGlobalFilter
          (a :: t)).localFilterContains (a :: t) = false := by
        simp [ClauseDatabase.localFilterContains, ClauseDatabase.insertToGlobalFilter,
          ClauseDatabase.resetGlobalFilter, ClauseDatabase.resetLocalFilter, List.contains]
      rcases filterClause_cases (db.resetGlobalFilter.resetLocalFilter) (a :: t) with
        ⟨hg2, _⟩ | ⟨_, hl2, _⟩ | ⟨_, _, heq⟩
      · rw [hg] at hg2
        cases hg2
      · rw [hl] at hl2
        cases hl2
      · rw [heq]

/-- C4 witness: the amended dedup properties at a fresh database and the
clause `[1]` submitted twice in one round. -/
theorem c4_dedup_amended_witness :
    ([1] : List Int) ≠ [] ∧
      ((ClauseDatabase.new.getFilteredClauses [[1], [1]]).1.Nodup ∧
        (ClauseDatabase.new.filterClause [1]).2.globalFilterContains [1] = true ∧
        ((ClauseDatabase.new.filterClause [1]).2.resetLocalFilter.filterClause [1]).1 =
          .error "Clause did not pass the global filter" ∧
        ((ClauseDatabase.new.resetGlobalFilter.resetLocalFilter).filterClause [1]).1 =
          .ok [1]) :=
  ⟨by decide, c4_dedup_amended ClauseDatabase.new [[1], [1]] [1] (by decide)⟩

theorem buildOneClause_foldAux (b : Bdd) (l : List (Bool × BddPointer)) :
    ∀ acc : List Int, (∀ x ∈ l, (b.varOfPtr x.2).isSome) →
      l.foldlM
          (fun acc step =>
            match b.varOfPtr step.2 with
            | some v => some (acc ++ [if step.1 then v.name else -v.name])
            | none => none)
          acc =
        some (acc ++ l.map (stepLiteral b)) := by
  induction l with
  | nil =>
    intro acc _
    simp
  | cons x t ih =>
    intro acc hsome
    have hx : (b.varOfPtr x.2).isSome := hsome x (List.mem_cons_self x t)
    rcases hv : b.varOfPtr x.2 with _ | v
    · rw [hv] at hx
      cases hx
    · rw [List.foldlM_cons, hv]
      have ht : ∀ y ∈ t, (b.varOfPtr y.2).isSome := fun y hy =>
        hsome y (List.mem_cons_of_mem x hy)
      calc (Option.bind (some (acc ++ [if x.1 then v.name else -v.name]))
              fun a => t.foldlM
                (fun acc step =>
                  match b.varOfPtr step.2 with
                  | some w => some (acc ++ [if step.1 then w.name else -w.name])
                  | none => none) a) =
            t.foldlM
              (fun acc step =>
                match b.varOfPtr step.2 with
                | some w => some (acc ++ [if step.1 then w.name else -w.name])
                | none => none) (acc ++ [if x.1 then v.name else -v.name]) := rfl
        _ = some (acc ++ [if x.1 then v.name else -v.name] ++ t.map (stepLiteral b)) :=
            ih _ ht
        _ = some (acc ++ (x :: t).map (stepLiteral b)) := by
            simp [stepLiteral, hv]

theorem buildOneClause_eq (b : Bdd) (p : List (Bool × BddPointer))
    (h : ∀ x ∈ p, (b.varOfPtr x.2).isSome) :
    b.buildOneClause p = some (p.reverse.map (stepLiteral b)) := by
  have h2 : ∀ x ∈ p.reverse, (b.varOfPtr x.2).isSome := fun x hx =>
    h x (List.mem_reverse.1 hx)
  have := buildOneClause_foldAux b p.reverse [] h2
  simpa [Bdd.buildOneClause] using this

theorem buildLearnedClause_foldAux (b : Bdd) (ps : List (List (Bool × BddPointer))) :
    ∀ acc : List (List Int),
      (∀ p ∈ ps, b.buildOneClause p = some (p.reverse.map (stepLiteral b))) →
      ps.foldlM (fun acc path => (b.buildOneClause path).map (fun c => acc ++ [c])) acc =
        some (acc ++ ps.map (fun p => p.reverse.map (stepLiteral b))) := by
  induction ps with
  | nil =>
    intro acc _
    simp
  | cons p t ih =>
    intro acc hall
    rw [List.foldlM_cons, hall p (List.mem_cons_self p t)]
    have ht : ∀ q ∈ t, b.buildOneClause q = some (q.reverse.map (stepLiteral b)) :=
      fun q hq => hall q (List.mem_cons_of_mem p hq)
    calc (Option.bind (Option.map (fun c => acc ++ [c]) (some (p.reverse.map (stepLiteral b))))
            fun a => t.foldlM
              (fun acc path => (b.buildOneClause path).map (fun c => acc ++ [c])) a) =
          t.foldlM (fun acc path => (b.buildOneClause path).map (fun c => acc ++ [c]))
            (acc ++ [p.reverse.map (stepLiteral b)]) := rfl
      _ = some (acc ++ [p.reverse.map (stepLiteral b)] ++
            t.map (fun q => q.reverse.map (stepLiteral b))) := ih _ ht
      _ = some (acc ++ (p :: t).map (fun q => q.reverse.map (stepLiteral b))) := by
          simp

/-- C9: for every diagram and every list of conflict paths whose
pointers are in bounds (`var_of_ptr` panics otherwise),
`build_learned_clause` returns exactly one learned clause per path, the
clause obtained by reversing the path and mapping each
(polarity, pointer) step to a literal — the negated variable id of the
pointed-to node for a low (false) step, the unnegated id for a high
(true) step; duplicate clauses across paths are kept, since the result
is a plain per-path map. -/
theorem c9_buildLearnedClause_spec (b : Bdd)
    (conflictPaths : List (List (Bool × BddPointer)))
    (hbound : ∀ p ∈ conflictPaths, ∀ x ∈ p, x.2.index < b.size) :
    b.buildLearnedClause conflictPaths =
      some (conflictPaths.map (fun p => p.reverse.map (stepLiteral b))) := by
  have hsome : ∀ p ∈ conflictPaths, ∀ x ∈ p, (b.varOfPtr x.2).isSome := by
    intro p hp x hx
    have hlt : x.2.index < b.nodes.length := hbound p hp x hx
    simp [Bdd.varOfPtr, BddPointer.toIndex, List.get?_eq_getElem?,
      List.getElem?_eq_getElem hlt]
  have hall : ∀ p ∈ conflictPaths,
      b.buildOneClause p = some (p.reverse.map (stepLiteral b)) := fun p hp =>
    buildOneClause_eq b p (hsome p hp)
  have := buildLearnedClause_foldAux b conflictPaths [] hall
  simpa [Bdd.buildLearnedClause] using this

/-- C9 witness: the single-variable diagram with two one-step paths, a
low step giving the negated literal and a high step the unnegated
one. -/
theorem c9_buildLearnedClause_witness :
    (∀ p ∈ [[(false, (⟨2⟩ : BddPointer))], [(true, (⟨2⟩ : BddPointer))]],
        ∀ x ∈ p, (Prod.snd x).index < (Bdd.newVar ⟨1, 0⟩).size) ∧
      (Bdd.newVar ⟨1, 0⟩).buildLearnedClause
          [[(false, ⟨2⟩)], [(true, ⟨2⟩)]] =
        some ([[(false, (⟨2⟩ : BddPointer))], [(true, (⟨2⟩ : BddPointer))]].map
          (fun p => p.reverse.map (stepLiteral (Bdd.newVar ⟨1, 0⟩)))) :=
  ⟨by decide, c9_buildLearnedClause_spec (Bdd.newVar ⟨1, 0⟩)
    [[(false, ⟨2⟩)], [(true, ⟨2⟩)]] (by decide)⟩

/-- C10: the clause-level filter membership tests are per literal: a
clause is judged a member exactly when every one of its literals is
individually contained in the filter, so a clause whose literals all
occurred in previously inserted clauses is discarded even if it was
never itself submitted, and the empty clause is vacuously judged a
member and never forwarded. -/
theorem c10_per_literal_membership (db : ClauseDatabase) (c : List Int) :
    (db.globalFilterContains c = true ↔ ∀ l ∈ c, l ∈ db.globalFilter) ∧
      (db.localFilterContains c = true ↔ ∀ l ∈ c, l ∈ db.localFilter) ∧
      ((∀ l ∈ c, l ∈ db.globalFilter) →
        (db.filterClause c).1 = .error "Clause did not pass the global filter") ∧
      db.globalFilterContains [] = true ∧
      db.localFilterContains [] = true ∧
      (db.filterClause []).1 = .error "Clause did not pass the global filter" := by
  have hglobal := globalFilterContains_iff db c
  have hlocal := localFilterContains_iff db c
  have hdiscard : (∀ l ∈ c, l ∈ db.globalFilter) →
      (db.filterClause c).1 = .error "Clause did not pass the global filter" := by
    intro h
    rw [filterClause_error_of_global db c (hglobal.2 h)]
  have hempty : db.globalFilterContains [] = true := by
    rw [globalFilterContains_iff]
    intro l hl
    cases hl
  have hempty2 : db.localFilterContains [] = true := by
    rw [localFilterContains_iff]
    intro l hl
    cases hl
  refine ⟨hglobal, hlocal, hdiscard, hempty, hempty2, ?_⟩
  rw [filterClause_error_of_global db [] hempty]

/-- C10 witness: after the literals 1 and 2 are in the global filter,
the clause `[1, 2]` is judged a member and discarded even though it was
never submitted as a clause. -/
theorem c10_per_literal_membership_witness :
    (∀ l ∈ ([1, 2] : List Int), l ∈ (⟨[2, 1], []⟩ : ClauseDatabase).globalFilter) ∧
      ((⟨[2, 1], []⟩ : ClauseDatabase).filterClause [1, 2]).1 =
        .error "Clause did not pass the global filter" :=
  ⟨by decide, (c10_per_literal_membership ⟨[2, 1], []⟩ [1, 2]).2.2.1 (by decide)⟩

theorem reducedInternal_new : ReducedInternal Bdd.new := by
  intro i n h2 hg
  rcases i with _ | _ | i
  · omega
  · omega
  · simp [Bdd.new] at hg

theorem reducedInternal_pushNode (b : Bdd) (n : BddNode)
    (hb : ReducedInternal b) (hn : n.low ≠ n.high) : ReducedInternal (b.pushNode n) := by
  intro i m h2 hg
  simp only [Bdd.pushNode] at hg
  by_cases hi : i < b.nodes.length
  · rw [List.get?_append hi] at hg
    exact hb i m h2 hg
  · by_cases he : i = b.nodes.length
    · subst he
      rw [List.get?_concat_length] at hg
      cases hg
      exact hn
    · have : (b.nodes ++ [n]).length ≤ i := by
        simp
        omega
      rw [List.get?_eq_none.2 this] at hg
      cases hg

theorem applyStep_out_cases (selfB otherB : Bdd)
    (op : Option Bool → Option Bool → Option Bool) (ordering : Int → Option Nat)
    (st st2 : ApplyState) (h : applyStep selfB otherB op ordering st = .next st2) :
    st2.out = st.out ∨
      ∃ v nl nh, nl ≠ nh ∧ st2.out = st.out.pushNode (BddNode.mkNode v nl nh) := by
  unfold applyStep at h
  split at h
  · cases h
  · split at h
    · cases h
      exact Or.inl rfl
    · split at h
      · cases h
      · split at h
        · split at h
          · cases h
            exact Or.inl rfl
          · simp only [] at h
            rename_i hne
            split at h
            · cases h
              exact Or.inl rfl
            · cases h
              exact Or.inr ⟨_, _, _, hne, rfl⟩
        · simp only [] at h
          cases h
          exact Or.inl rfl

theorem applyRun_reducedInternal (selfB otherB : Bdd)
    (op : Option Bool → Option Bool → Option Bool) (ordering : Int → Option Nat) :
    ∀ (fuel : Nat) (st : ApplyState) (bdd : Bdd),
      applyRun selfB otherB op ordering fuel st = .finished bdd →
      ReducedInternal st.out → ReducedInternal bdd := by
  intro fuel
  induction fuel with
  | zero =>
    intro st bdd h
    cases h
  | succ n ih =>
    intro st bdd h hred
    rw [applyRun] at h
    rcases hstep : applyStep selfB otherB op ordering st with _ | _ | st2 <;> rw [hstep] at h
    · cases h
      exact hred
    · cases h
    · rcases applyStep_out_cases selfB otherB op ordering st st2 hstep with hsame | ⟨v, nl, nh, hne, hpush⟩
      · exact ih st2 bdd h (hsame ▸ hred)
      · refine ih st2 bdd h ?_
        rw [hpush]
        exact reducedInternal_pushNode st.out (BddNode.mkNode v nl nh) hred hne

/-- C5 counterexample: the diagram returned by AND-applying the
single-variable diagram for x to itself contains the two terminal slot
nodes pushed by `Bdd::new()`, whose low and high pointers are equal
(the FALSE terminal links to itself on both branches), so the claim
read over all nodes of the returned array fails. -/
theorem c5_low_high_counterexample :
    Bdd.andFuel (Bdd.newVar ⟨1, 0⟩) (Bdd.newVar ⟨1, 0⟩) orderingX 3 =
        ApplyRunRes.finished
          ⟨[BddNode.mkZero sentinelVar, BddNode.mkOne sentinelVar,
            BddNode.mkNode ⟨1, 0⟩ ⟨0⟩ ⟨1⟩]⟩ ∧
      ((⟨[BddNode.mkZero sentinelVar, BddNode.mkOne sentinelVar,
            BddNode.mkNode ⟨1, 0⟩ ⟨0⟩ ⟨1⟩]⟩ : Bdd).nodes.any
          (fun n => n.low == n.high)) = true := by
  refine ⟨by decide, by decide⟩

/-- C5 amended: whenever `apply` finishes, every internal node (index at
least 2, past the two terminal slots) of the returned diagram has
distinct low and high pointers: a node is pushed only in the branch
where the two sub-results differ, coinciding sub-results instead become
the task's result directly. -/
theorem c5_reduction_invariant (selfB otherB : Bdd)
    (op : Option Bool → Option Bool → Option Bool) (ordering : Int → Option Nat)
    (fuel : Nat) (bdd : Bdd)
    (h : Bdd.applyFuel selfB otherB op ordering fuel = .finished bdd) :
    ∀ i n, 2 ≤ i → bdd.nodes.get? i = some n → n.low ≠ n.high :=
  applyRun_reducedInternal selfB otherB op ordering fuel (applyInit selfB otherB) bdd h
    reducedInternal_new

/-- C5 witness: the run of AND on the diagrams for `[x]` and `[¬x]`
finishes, and the invariant holds of its (terminal-only) output. -/
theorem c5_reduction_invariant_witness :
    Bdd.applyFuel (Bdd.newVar ⟨1, 0⟩) (Bdd.newNotVar ⟨1, 0⟩) boolExprAnd orderingX 3 =
        ApplyRunRes.finished Bdd.new ∧
      ∀ i n, 2 ≤ i → Bdd.new.nodes.get? i = some n → n.low ≠ n.high :=
  ⟨by decide,
    c5_reduction_invariant (Bdd.newVar ⟨1, 0⟩) (Bdd.newNotVar ⟨1, 0⟩) boolExprAnd
      orderingX 3 Bdd.new (by decide)⟩

theorem c8_divergence_aux (n : Nat) :
    ∀ (ss : List ApplyTask) (m : List (BddNode × BddPointer)) (o : Bdd),
      applyRun (Bdd.newVar ⟨1, 0⟩) (Bdd.newVar ⟨2, 0⟩) boolExprOr orderingSentinelFirst n
          ⟨⟨⟨0⟩, ⟨2⟩⟩ :: ss, [], m, o⟩ =
        ApplyRunRes.fuelOut := by
  induction n with
  | zero =>
    intro ss m o
    rfl
  | succ k ih =>
    intro ss m o
    have hstep : applyStep (Bdd.newVar ⟨1, 0⟩) (Bdd.newVar ⟨2, 0⟩) boolExprOr
        orderingSentinelFirst ⟨⟨⟨0⟩, ⟨2⟩⟩ :: ss, [], m, o⟩ =
          .next ⟨⟨⟨0⟩, ⟨2⟩⟩ :: ⟨⟨0⟩, ⟨2⟩⟩ :: ⟨⟨0⟩, ⟨2⟩⟩ :: ss, [], m, o⟩ := rfl
    rw [applyRun, hstep]
    exact ih _ m o

/-- C8 counterexample: OR-applying the diagrams for the variables 1 and
2 under an ordering that ranks the terminal sentinel first — an ordering
under which every rank lookup performed by the run succeeds — never
reaches an empty stack: the task pairing the FALSE terminal with an
internal node re-pushes itself forever, so `apply` does not terminate
on this input. -/
theorem c8_apply_divergence_counterexample :
    ¬ ∃ (fuel : Nat) (bdd : Bdd),
        Bdd.applyFuel (Bdd.newVar ⟨1, 0⟩) (Bdd.newVar ⟨2, 0⟩) boolExprOr
            orderingSentinelFirst fuel =
          ApplyRunRes.finished bdd := by
  rintro ⟨fuel, bdd, h⟩
  rcases fuel with _ | k
  · cases h
  · have hstep : applyStep (Bdd.newVar ⟨1, 0⟩) (Bdd.newVar ⟨2, 0⟩) boolExprOr
        orderingSentinelFirst (applyInit (Bdd.newVar ⟨1, 0⟩) (Bdd.newVar ⟨2, 0⟩)) =
          .next ⟨[⟨⟨0⟩, ⟨2⟩⟩, ⟨⟨2⟩, ⟨2⟩⟩], [],
            [(BddNode.mkZero sentinelVar, ⟨0⟩), (BddNode.mkOne sentinelVar, ⟨1⟩)],
            Bdd.new⟩ := rfl
    rw [Bdd.applyFuel, applyRun, hstep] at h
    have h2 : ApplyRunRes.fuelOut = ApplyRunRes.finished bdd := by
      rw [← c8_divergence_aux k [⟨⟨2⟩, ⟨2⟩⟩]
        [(BddNode.mkZero sentinelVar, ⟨0⟩), (BddNode.mkOne sentinelVar, ⟨1⟩)] Bdd.new]
      exact h
    cases h2

theorem finishedMono_refl (f : List (ApplyTask × BddPointer)) : FinishedMono f f :=
  fun _ _ h => h

theorem finishedMono_trans {f g h : List (ApplyTask × BddPointer)}
    (h1 : FinishedMono f g) (h2 : FinishedMono g h) : FinishedMono f h :=
  fun t v hv => h2 t v (h1 t v hv)

theorem lookup_cons_self (t : ApplyTask) (v : BddPointer)
    (f : List (ApplyTask × BddPointer)) : List.lookup t ((t, v) :: f) = some v := by
  simp [List.lookup]

theorem finishedMono_insert (f : List (ApplyTask × BddPointer)) (t : ApplyTask)
    (v : BddPointer) (h : f.lookup t = none) : FinishedMono f ((t, v) :: f) := by
  intro u w hu
  by_cases he : t = u
  · subst he
    rw [h] at hu
    cases hu
  · rw [List.lookup_cons]
    have hb : (u == t) = false := beq_eq_false_iff_ne.2 fun hh => he hh.symm
    rw [hb]
    exact hu

theorem finishedMono_isSome {f g : List (ApplyTask × BddPointer)} (t : ApplyTask)
    (hmono : FinishedMono f g) (h : (f.lookup t).isSome = true) :
    (g.lookup t).isSome = true := by
  rcases ho : f.lookup t with _ | v
  · rw [ho] at h
    cases h
  · rw [hmono t v ho]
    rfl

theorem stepIter_add (selfB otherB : Bdd) (op : Option Bool → Option Bool → Option Bool)
    (ordering : Int → Option Nat) (k1 : Nat) :
    ∀ (k2 : Nat) (st st1 : ApplyState),
      stepIter selfB otherB op ordering k1 st = some st1 →
      stepIter selfB otherB op ordering (k1 + k2) st =
        stepIter selfB otherB op ordering k2 st1 := by
  induction k1 with
  | zero =>
    intro k2 st st1 h
    cases h
    rw [Nat.zero_add]
  | succ k ih =>
    intro k2 st st1 h
    rw [stepIter] at h
    have hadd : k + 1 + k2 = (k + k2) + 1 := by omega
    rw [hadd, stepIter]
    rcases hstep : applyStep selfB otherB op ordering st with _ | _ | st2 <;>
      rw [hstep] at h
    · cases h
    · cases h
    · exact ih k2 st2 st1 h

theorem wf_node_cases (ordering : Int → Option Nat) (s : Nat) (b : Bdd)
    (hb : WfDiagram b) (hob : OrderingBelow ordering s b)
    (hs : ordering sentinelName = some s) (i : Nat) (n : BddNode)
    (h : b.nodes.get? i = some n) :
    ∃ r, ordering n.var.name = some r ∧ r ≤ s ∧
      (2 ≤ i → r < s ∧ n.low.index < i ∧ n.high.index < i) ∧
      (i < 2 → n.var = sentinelVar ∧ n.low.index = i ∧ n.high.index = i ∧ r = s) := by
  rcases i with _ | _ | i
  · rw [hb.1] at h
    cases h
    refine ⟨s, hs, Nat.le_refl s, by omega, ?_⟩
    intro _
    exact ⟨rfl, rfl, rfl, rfl⟩
  · rw [hb.2.1] at h
    cases h
    refine ⟨s, hs, Nat.le_refl s, by omega, ?_⟩
    intro _
    exact ⟨rfl, rfl, rfl, rfl⟩
  · have h2 : 2 ≤ i + 2 := by omega
    rcases hob (i + 2) n h h2 with ⟨r, hr, hrs⟩
    rcases hb.2.2 (i + 2) n h h2 with ⟨hl, hh⟩
    exact ⟨r, hr, Nat.le_of_lt hrs, fun _ => ⟨hrs, hl, hh⟩, by omega⟩

theorem taskSubs_spec (selfB otherB : Bdd) (ordering : Int → Option Nat) (s : Nat)
    (hA : WfDiagram selfB) (hB : WfDiagram otherB)
    (hOA : OrderingBelow ordering s selfB) (hOB : OrderingBelow ordering s otherB)
    (hs : ordering sentinelName = some s) (t : ApplyTask)
    (ht : TaskOK selfB otherB t) :
    ∃ sL sR mv, taskSubs selfB otherB ordering t = some (sL, sR, mv) ∧
      TaskOK selfB otherB sL ∧ TaskOK selfB otherB sR ∧
      ((2 ≤ sL.left.index ∨ 2 ≤ sL.right.index) → taskRank sL < taskRank t) ∧
      ((2 ≤ sR.left.index ∨ 2 ≤ sR.right.index) → taskRank sR < taskRank t) := by
  obtain ⟨hlt, hrt⟩ := ht
  obtain ⟨lNode, hlN⟩ : ∃ nd, selfB.nodes.get? t.left.index = some nd :=
    ⟨_, List.get?_eq_get hlt⟩
  obtain ⟨rNode, hrN⟩ : ∃ nd, otherB.nodes.get? t.right.index = some nd :=
    ⟨_, List.get?_eq_get hrt⟩
  obtain ⟨li, hli, hlis, hliInt, hliTer⟩ :=
    wf_node_cases ordering s selfB hA hOA hs t.left.index lNode hlN
  obtain ⟨ri, hri, hris, hriInt, hriTer⟩ :=
    wf_node_cases ordering s otherB hB hOB hs t.right.index rNode hrN
  refine ⟨⟨if lNode.var = (if li < ri then lNode.var else rNode.var) then lNode.low
              else t.left,
            if lNode.var = rNode.var ∨ rNode.var = (if li < ri then lNode.var else rNode.var)
              then rNode.low else t.right⟩,
          ⟨if lNode.var = (if li < ri then lNode.var else rNode.var) then lNode.high
              else t.left,
            if lNode.var = rNode.var ∨ rNode.var = (if li < ri then lNode.var else rNode.var)
              then rNode.high else t.right⟩,
          (if li < ri then lNode.var else rNode.var), ?_, ?_, ?_, ?_, ?_⟩
  · simp only [taskSubs, BddPointer.toIndex, hlN, hrN, hli, hri]
  all_goals {
    have hclLe : (if lNode.var = (if li < ri then lNode.var else rNode.var) then lNode.low
        else t.left).index ≤ t.left.index := by
      by_cases hdl : lNode.var = (if li < ri then lNode.var else rNode.var)
      · rw [if_pos hdl]
        by_cases h2 : 2 ≤ t.left.index
        · exact Nat.le_of_lt (hliInt h2).2.1
        · rw [(hliTer (by omega)).2.1]
      · rw [if_neg hdl]
    have hchLe : (if lNode.var = (if li < ri then lNode.var else rNode.var) then lNode.high
        else t.left).index ≤ t.left.index := by
      by_cases hdl : lNode.var = (if li < ri then lNode.var else rNode.var)
      · rw [if_pos hdl]
        by_cases h2 : 2 ≤ t.left.index
        · exact Nat.le_of_lt (hliInt h2).2.2
        · rw [(hliTer (by omega)).2.2.1]
      · rw [if_neg hdl]
    have hcrlLe : (if lNode.var = rNode.var ∨
        rNode.var = (if li < ri then lNode.var else rNode.var) then rNode.low
        else t.right).index ≤ t.right.index := by
      by_cases hdr : lNode.var = rNode.var ∨
          rNode.var = (if li < ri then lNode.var else rNode.var)
      · rw [if_pos hdr]
        by_cases h2 : 2 ≤ t.right.index
        · exact Nat.le_of_lt (hriInt h2).2.1
        · rw [(hriTer (by omega)).2.1]
      · rw [if_neg hdr]
    have hcrhLe : (if lNode.var = rNode.var ∨
        rNode.var = (if li < ri then lNode.var else rNode.var) then rNode.high
        else t.right).index ≤ t.right.index := by
      by_cases hdr : lNode.var = rNode.var ∨
          rNode.var = (if li < ri then lNode.var else rNode.var)
      · rw [if_pos hdr]
        by_cases h2 : 2 ≤ t.right.index
        · exact Nat.le_of_lt (hriInt h2).2.2
        · rw [(hriTer (by omega)).2.2.1]
      · rw [if_neg hdr]
    have hmain :
        ((if lNode.var = (if li < ri then lNode.var else rNode.var) then lNode.low
            else t.left).index < t.left.index ∧
          (if lNode.var = (if li < ri then lNode.var else rNode.var) then lNode.high
            else t.left).index < t.left.index) ∨
        ((if lNode.var = rNode.var ∨
            rNode.var = (if li < ri then lNode.var else rNode.var) then rNode.low
            else t.right).index < t.right.index ∧
          (if lNode.var = rNode.var ∨
            rNode.var = (if li < ri then lNode.var else rNode.var) then rNode.high
            else t.right).index < t.right.index) ∨
        ((if lNode.var = (if li < ri then lNode.var else rNode.var) then lNode.low
            else t.left).index < 2 ∧
          (if lNode.var = (if li < ri then lNode.var else rNode.var) then lNode.high
            else t.left).index < 2 ∧
          (if lNode.var = rNode.var ∨
            rNode.var = (if li < ri then lNode.var else rNode.var) then rNode.low
            else t.right).index < 2 ∧
          (if lNode.var = rNode.var ∨
            rNode.var = (if li < ri then lNode.var else rNode.var) then rNode.high
            else t.right).index < 2) := by
      by_cases hcmp : li < ri
      · left
        have hdl : lNode.var = (if li < ri then lNode.var else rNode.var) := by
          rw [if_pos hcmp]
        have h2 : 2 ≤ t.left.index := by
          by_contra h2
          have := (hliTer (by omega)).2.2.2
          omega
        rw [if_pos hdl, if_pos hdl]
        exact ⟨(hliInt h2).2.1, (hliInt h2).2.2⟩
      · have hdr : lNode.var = rNode.var ∨
            rNode.var = (if li < ri then lNode.var else rNode.var) := by
          right
          rw [if_neg hcmp]
        by_cases h2r : 2 ≤ t.right.index
        · right
          left
          rw [if_pos hdr, if_pos hdr]
          exact ⟨(hriInt h2r).2.1, (hriInt h2r).2.2⟩
        · right
          right
          have hter := hriTer (by omega)
          have hlis2 : li = s := by
            have h1 : ri ≤ li := by omega
            have h2 : ri = s := hter.2.2.2
            omega
          have h2l : t.left.index < 2 := by
            by_contra h2l
            have := (hliInt (by omega)).1
            omega
          have hlter := hliTer h2l
          have hdl : lNode.var = (if li < ri then lNode.var else rNode.var) := by
            rw [if_neg hcmp, hlter.1, hter.1]
          rw [if_pos hdl, if_pos hdl, if_pos hdr, if_pos hdr]
          rw [hlter.2.1, hlter.2.2.1, hter.2.1, hter.2.2.1]
          omega
    first
      | (refine ⟨?_, ?_⟩ <;> (try dsimp only) <;> omega)
      | (intro hcase
         try dsimp only at hcase
         simp only [taskRank]
         try dsimp only
         rcases hmain with ⟨ha, hb⟩ | ⟨ha, hb⟩ | ⟨ha, hb, hc, hd⟩ <;> omega)
  }

theorem asBool_isSome_of_terminal (p : BddPointer) (h : p.index < 2) :
    p.asBool.isSome = true := by
  rcases p with ⟨i⟩
  rcases i with _ | _ | i
  · rfl
  · rfl
  · exfalso
    simp at h
    omega

theorem subResult_none_inversion (op : Option Bool → Option Bool → Option Bool)
    (f : List (ApplyTask × BddPointer)) (sub : ApplyTask)
    (h : subResult op f sub = none) :
    op sub.left.asBool sub.right.asBool = none ∧ f.lookup sub = none := by
  unfold subResult at h
  rcases ho : op sub.left.asBool sub.right.asBool with _ | v
  · rw [ho] at h
    exact ⟨rfl, h⟩
  · rw [ho] at h
    cases h

theorem subResult_none_internal (op : Option Bool → Option Bool → Option Bool)
    (hop : ∀ a b : Bool, (op (some a) (some b)).isSome = true)
    (f : List (ApplyTask × BddPointer)) (sub : ApplyTask)
    (h : subResult op f sub = none) :
    2 ≤ sub.left.index ∨ 2 ≤ sub.right.index := by
  rcases subResult_none_inversion op f sub h with ⟨hopn, _⟩
  by_contra hcon
  push_neg at hcon
  have h1 := asBool_isSome_of_terminal sub.left (by omega)
  have h2 := asBool_isSome_of_terminal sub.right (by omega)
  rcases ha : sub.left.asBool with _ | a
  · rw [ha] at h1
    cases h1
  · rcases hb : sub.right.asBool with _ | b
    · rw [hb] at h2
      cases h2
    · rw [ha, hb] at hopn
      have := hop a b
      rw [hopn] at this
      cases this

theorem subResult_isSome_mono (op : Option Bool → Option Bool → Option Bool)
    {f g : List (ApplyTask × BddPointer)} (hmono : FinishedMono f g) (sub : ApplyTask)
    (h : (subResult op f sub).isSome = true) : (subResult op g sub).isSome = true := by
  unfold subResult at h ⊢
  rcases ho : op sub.left.asBool sub.right.asBool with _ | v
  · rw [ho] at h
    exact finishedMono_isSome sub hmono h
  · rfl

theorem subResult_isSome_of_lookup (op : Option Bool → Option Bool → Option Bool)
    (g : List (ApplyTask × BddPointer)) (sub : ApplyTask)
    (h : (g.lookup sub).isSome = true) : (subResult op g sub).isSome = true := by
  unfold subResult
  rcases ho : op sub.left.asBool sub.right.asBool with _ | v
  · exact h
  · rfl

theorem applyStep_nil (selfB otherB : Bdd) (op : Option Bool → Option Bool → Option Bool)
    (ordering : Int → Option Nat) (fin : List (ApplyTask × BddPointer))
    (nm : List (BddNode × BddPointer)) (outb : Bdd) :
    applyStep selfB otherB op ordering ⟨[], fin, nm, outb⟩ = .done := rfl

theorem applyStep_cons_finished (selfB otherB : Bdd)
    (op : Option Bool → Option Bool → Option Bool) (ordering : Int → Option Nat)
    (t : ApplyTask) (rest : List ApplyTask) (fin : List (ApplyTask × BddPointer))
    (nm : List (BddNode × BddPointer)) (outb : Bdd)
    (hfin : (fin.lookup t).isSome = true) :
    applyStep selfB otherB op ordering ⟨t :: rest, fin, nm, outb⟩ =
      .next ⟨rest, fin, nm, outb⟩ := by
  simp only [applyStep]
  rw [if_pos hfin]

theorem applyStep_cons_resolve (selfB otherB : Bdd)
    (op : Option Bool → Option Bool → Option Bool) (ordering : Int → Option Nat)
    (t : ApplyTask) (rest : List ApplyTask) (fin : List (ApplyTask × BddPointer))
    (nm : List (BddNode × BddPointer)) (outb : Bdd)
    (sL sR : ApplyTask) (mv : BddVar) (pl ph : BddPointer)
    (hfin : fin.lookup t = none)
    (hsubs : taskSubs selfB otherB ordering t = some (sL, sR, mv))
    (hl : subResult op fin sL = some pl) (hh : subResult op fin sR = some ph) :
    ∃ (w : BddPointer) (nm2 : List (BddNode × BddPointer)) (outb2 : Bdd),
      applyStep selfB otherB op ordering ⟨t :: rest, fin, nm, outb⟩ =
        .next ⟨rest, (t, w) :: fin, nm2, outb2⟩ := by
  simp only [applyStep]
  rw [if_neg (by rw [hfin]; exact fun hc => by cases hc)]
  simp only [hsubs, hl, hh]
  by_cases hpe : pl = ph
  · rw [if_pos hpe]
    exact ⟨pl, nm, outb, rfl⟩
  · rw [if_neg hpe]
    rcases hnode : nm.lookup (BddNode.mkNode mv pl ph) with _ | idx
    · simp only [hnode]
      exact ⟨_, _, _, rfl⟩
    · simp only [hnode]
      exact ⟨idx, nm, outb, rfl⟩

theorem applyStep_cons_push (selfB otherB : Bdd)
    (op : Option Bool → Option Bool → Option Bool) (ordering : Int → Option Nat)
    (t : ApplyTask) (rest : List ApplyTask) (fin : List (ApplyTask × BddPointer))
    (nm : List (BddNode × BddPointer)) (outb : Bdd)
    (sL sR : ApplyTask) (mv : BddVar)
    (hfin : fin.lookup t = none)
    (hsubs : taskSubs selfB otherB ordering t = some (sL, sR, mv))
    (hnone : subResult op fin sL = none ∨ subResult op fin sR = none) :
    applyStep selfB otherB op ordering ⟨t :: rest, fin, nm, outb⟩ =
      .next ⟨(if subResult op fin sR = none then [sR] else []) ++
        (if subResult op fin sL = none then [sL] else []) ++ t :: rest, fin, nm, outb⟩ := by
  simp only [applyStep]
  rw [if_neg (by rw [hfin]; exact fun hc => by cases hc)]
  rcases hL : subResult op fin sL with _ | pl <;> rcases hH : subResult op fin sR with _ | ph
  · simp [hsubs, hL, hH]
  · simp [hsubs, hL, hH]
  · simp [hsubs, hL, hH]
  · rw [hL, hH] at hnone
    rcases hnone with hc | hc
    · cases hc
    · cases hc

theorem stepIter_one (selfB otherB : Bdd) (op : Option Bool → Option Bool → Option Bool)
    (ordering : Int → Option Nat) (st st1 : ApplyState)
    (h : applyStep selfB otherB op ordering st = .next st1) :
    stepIter selfB otherB op ordering 1 st = some st1 := by
  rw [stepIter, h]
  rfl

theorem lookup_none_of_not_isSome {f : List (ApplyTask × BddPointer)} {t : ApplyTask}
    (h : ¬ (f.lookup t).isSome = true) : f.lookup t = none := by
  rcases ho : f.lookup t with _ | v
  · rfl
  · rw [ho] at h
    exact absurd rfl h

theorem runPop (selfB otherB : Bdd) (op : Option Bool → Option Bool → Option Bool)
    (ordering : Int → Option Nat) (s : Nat)
    (hA : WfDiagram selfB) (hB : WfDiagram otherB)
    (hOA : OrderingBelow ordering s selfB) (hOB : OrderingBelow ordering s otherB)
    (hs : ordering sentinelName = some s)
    (hop : ∀ a b : Bool, (op (some a) (some b)).isSome = true) :
    ∀ (n : Nat) (st : ApplyState) (t : ApplyTask) (rest : List ApplyTask),
      st.stack = t :: rest → TaskOK selfB otherB t → taskRank t ≤ n →
      ∃ (k : Nat) (st2 : ApplyState),
        stepIter selfB otherB op ordering k st = some st2 ∧ st2.stack = rest ∧
          FinishedMono st.finished st2.finished ∧
          (st2.finished.lookup t).isSome = true := by
  intro n
  induction n using Nat.strong_induction_on with
  | _ n ih =>
    intro st t rest hstack htOK hrank
    obtain ⟨stk, fin, nm, outb⟩ := st
    have hstk : stk = t :: rest := hstack
    subst hstk
    by_cases hfin : (List.lookup t fin).isSome = true
    · refine ⟨1, ⟨rest, fin, nm, outb⟩, ?_, rfl, finishedMono_refl fin, hfin⟩
      exact stepIter_one selfB otherB op ordering _ _
        (applyStep_cons_finished selfB otherB op ordering t rest fin nm outb hfin)
    · have hfin2 : List.lookup t fin = none := lookup_none_of_not_isSome hfin
      obtain ⟨sL, sR, mv, hsubs, hokL, hokR, hstrL, hstrR⟩ :=
        taskSubs_spec selfB otherB ordering s hA hB hOA hOB hs t htOK
      rcases hL : subResult op fin sL with _ | pl <;>
        rcases hH : subResult op fin sR with _ | ph
      · -- both sub-results unknown: push sR then sL, process each, revisit t
        have hstep := applyStep_cons_push selfB otherB op ordering t rest fin nm outb
          sL sR mv hfin2 hsubs (Or.inl hL)
        rw [if_pos hH, if_pos hL] at hstep
        simp only [List.cons_append, List.nil_append] at hstep
        have hrankL : taskRank sL < taskRank t :=
          hstrL (subResult_none_internal op hop fin sL hL)
        have hrankR : taskRank sR < taskRank t :=
          hstrR (subResult_none_internal op hop fin sR hH)
        obtain ⟨k1, st3, hiter1, hstack3, hmono1, hsome1⟩ :=
          ih (taskRank sR) (by omega) ⟨sR :: sL :: t :: rest, fin, nm, outb⟩ sR
            (sL :: t :: rest) rfl hokR (Nat.le_refl _)
        obtain ⟨stk3, fin3, nm3, outb3⟩ := st3
        have h3 : stk3 = sL :: t :: rest := hstack3
        subst h3
        obtain ⟨k2, st4, hiter2, hstack4, hmono2, hsome2⟩ :=
          ih (taskRank sL) (by omega) ⟨sL :: t :: rest, fin3, nm3, outb3⟩ sL
            (t :: rest) rfl hokL (Nat.le_refl _)
        obtain ⟨stk4, fin4, nm4, outb4⟩ := st4
        have h4 : stk4 = t :: rest := hstack4
        subst h4
        have hmono14 : FinishedMono fin fin4 := finishedMono_trans hmono1 hmono2
        have hsomeL : (subResult op fin4 sL).isSome = true :=
          subResult_isSome_of_lookup op fin4 sL hsome2
        have hsomeR : (subResult op fin4 sR).isSome = true :=
          subResult_isSome_of_lookup op fin4 sR (finishedMono_isSome sR hmono2 hsome1)
        have hcompose : ∀ (kz : Nat) (stz : ApplyState),
            stepIter selfB otherB op ordering kz ⟨t :: rest, fin4, nm4, outb4⟩ = some stz →
            stepIter selfB otherB op ordering (1 + (k1 + (k2 + kz)))
              ⟨t :: rest, fin, nm, outb⟩ = some stz := by
          intro kz stz hz
          rw [stepIter_add selfB otherB op ordering 1 (k1 + (k2 + kz)) _ _
            (stepIter_one selfB otherB op ordering _ _ hstep)]
          rw [stepIter_add selfB otherB op ordering k1 (k2 + kz) _ _ hiter1]
          rw [stepIter_add selfB otherB op ordering k2 kz _ _ hiter2]
          exact hz
        by_cases hfin4 : (List.lookup t fin4).isSome = true
        · refine ⟨1 + (k1 + (k2 + 1)), ⟨rest, fin4, nm4, outb4⟩, ?_, rfl, hmono14, hfin4⟩
          exact hcompose 1 _ (stepIter_one selfB otherB op ordering _ _
            (applyStep_cons_finished selfB otherB op ordering t rest fin4 nm4 outb4 hfin4))
        · have hfin4n : List.lookup t fin4 = none := lookup_none_of_not_isSome hfin4
          obtain ⟨pl, hpl⟩ := Option.isSome_iff_exists.1 hsomeL
          obtain ⟨ph, hph⟩ := Option.isSome_iff_exists.1 hsomeR
          obtain ⟨w, nm5, outb5, hstepEq⟩ := applyStep_cons_resolve selfB otherB op
            ordering t rest fin4 nm4 outb4 sL sR mv pl ph hfin4n hsubs hpl hph
          refine ⟨1 + (k1 + (k2 + 1)), ⟨rest, (t, w) :: fin4, nm5, outb5⟩, ?_, rfl,
            finishedMono_trans hmono14 (finishedMono_insert fin4 t w hfin4n), ?_⟩
          · exact hcompose 1 _ (stepIter_one selfB otherB op ordering _ _ hstepEq)
          · rw [lookup_cons_self]
            rfl
      · -- only the low sub-result unknown: push sL, process it, revisit t
        have hstep := applyStep_cons_push selfB otherB op ordering t rest fin nm outb
          sL sR mv hfin2 hsubs (Or.inl hL)
        rw [if_neg (show ¬ subResult op fin sR = none from fun hc => by
          rw [hH] at hc; cases hc), if_pos hL] at hstep
        simp only [List.cons_append, List.nil_append] at hstep
        have hrankL : taskRank sL < taskRank t :=
          hstrL (subResult_none_internal op hop fin sL hL)
        obtain ⟨k1, st3, hiter1, hstack3, hmono1, hsome1⟩ :=
          ih (taskRank sL) (by omega) ⟨sL :: t :: rest, fin, nm, outb⟩ sL
            (t :: rest) rfl hokL (Nat.le_refl _)
        obtain ⟨stk3, fin3, nm3, outb3⟩ := st3
        have h3 : stk3 = t :: rest := hstack3
        subst h3
        have hsomeL : (subResult op fin3 sL).isSome = true :=
          subResult_isSome_of_lookup op fin3 sL hsome1
        have hsomeR : (subResult op fin3 sR).isSome = true :=
          subResult_isSome_mono op hmono1 sR (by rw [hH]; rfl)
        have hcompose : ∀ (kz : Nat) (stz : ApplyState),
            stepIter selfB otherB op ordering kz ⟨t :: rest, fin3, nm3, outb3⟩ = some stz →
            stepIter selfB otherB op ordering (1 + (k1 + kz))
              ⟨t :: rest, fin, nm, outb⟩ = some stz := by
          intro kz stz hz
          rw [stepIter_add selfB otherB op ordering 1 (k1 + kz) _ _
            (stepIter_one selfB otherB op ordering _ _ hstep)]
          rw [stepIter_add selfB otherB op ordering k1 kz _ _ hiter1]
          exact hz
        by_cases hfin3 : (List.lookup t fin3).isSome = true
        · refine ⟨1 + (k1 + 1), ⟨rest, fin3, nm3, outb3⟩, ?_, rfl, hmono1, hfin3⟩
          exact hcompose 1 _ (stepIter_one selfB otherB op ordering _ _
            (applyStep_cons_finished selfB otherB op ordering t rest fin3 nm3 outb3 hfin3))
        · have hfin3n : List.lookup t fin3 = none := lookup_none_of_not_isSome hfin3
          obtain ⟨pl, hpl⟩ := Option.isSome_iff_exists.1 hsomeL
          obtain ⟨ph, hph⟩ := Option.isSome_iff_exists.1 hsomeR
          obtain ⟨w, nm5, outb5, hstepEq⟩ := applyStep_cons_resolve selfB otherB op
            ordering t rest fin3 nm3 outb3 sL sR mv pl ph hfin3n hsubs hpl hph
          refine ⟨1 + (k1 + 1), ⟨rest, (t, w) :: fin3, nm5, outb5⟩, ?_, rfl,
            finishedMono_trans hmono1 (finishedMono_insert fin3 t w hfin3n), ?_⟩
          · exact hcompose 1 _ (stepIter_one selfB otherB op ordering _ _ hstepEq)
          · rw [lookup_cons_self]
            rfl
      · -- only the high sub-result unknown: push sR, process it, revisit t
        have hstep := applyStep_cons_push selfB otherB op ordering t rest fin nm outb
          sL sR mv hfin2 hsubs (Or.inr hH)
        rw [if_neg (show ¬ subResult op fin sL = none from fun hc => by
          rw [hL] at hc; cases hc), if_pos hH] at hstep
        simp only [List.cons_append, List.nil_append] at hstep
        have hrankR : taskRank sR < taskRank t :=
          hstrR (subResult_none_internal op hop fin sR hH)
        obtain ⟨k1, st3, hiter1, hstack3, hmono1, hsome1⟩ :=
          ih (taskRank sR) (by omega) ⟨sR :: t :: rest, fin, nm, outb⟩ sR
            (t :: rest) rfl hokR (Nat.le_refl _)
        obtain ⟨stk3, fin3, nm3, outb3⟩ := st3
        have h3 : stk3 = t :: rest := hstack3
        subst h3
        have hsomeR : (subResult op fin3 sR).isSome = true :=
          subResult_isSome_of_lookup op fin3 sR hsome1
        have hsomeL : (subResult op fin3 sL).isSome = true :=
          subResult_isSome_mono op hmono1 sL (by rw [hL]; rfl)
        have hcompose : ∀ (kz : Nat) (stz : ApplyState),
            stepIter selfB otherB op ordering kz ⟨t :: rest, fin3, nm3, outb3⟩ = some stz →
            stepIter selfB otherB op ordering (1 + (k1 + kz))
              ⟨t :: rest, fin, nm, outb⟩ = some stz := by
          intro kz stz hz
          rw [stepIter_add selfB otherB op ordering 1 (k1 + kz) _ _
            (stepIter_one selfB otherB op ordering _ _ hstep)]
          rw [stepIter_add selfB otherB op ordering k1 kz _ _ hiter1]
          exact hz
        by_cases hfin3 : (List.lookup t fin3).isSome = true
        · refine ⟨1 + (k1 + 1), ⟨rest, fin3, nm3, outb3⟩, ?_, rfl, hmono1, hfin3⟩
          exact hcompose 1 _ (stepIter_one selfB otherB op ordering _ _
            (applyStep_cons_finished selfB otherB op ordering t rest fin3 nm3 outb3 hfin3))
        · have hfin3n : List.lookup t fin3 = none := lookup_none_of_not_isSome hfin3
          obtain ⟨pl, hpl⟩ := Option.isSome_iff_exists.1 hsomeL
          obtain ⟨ph, hph⟩ := Option.isSome_iff_exists.1 hsomeR
          obtain ⟨w, nm5, outb5, hstepEq⟩ := applyStep_cons_resolve selfB otherB op
            ordering t rest fin3 nm3 outb3 sL sR mv pl ph hfin3n hsubs hpl hph
          refine ⟨1 + (k1 + 1), ⟨rest, (t, w) :: fin3, nm5, outb5⟩, ?_, rfl,
            finishedMono_trans hmono1 (finishedMono_insert fin3 t w hfin3n), ?_⟩
          · exact hcompose 1 _ (stepIter_one selfB otherB op ordering _ _ hstepEq)
          · rw [lookup_cons_self]
            rfl
      · -- both sub-results known: resolve immediately
        obtain ⟨w, nm2, outb2, hstepEq⟩ := applyStep_cons_resolve selfB otherB op
          ordering t rest fin nm outb sL sR mv pl ph hfin2 hsubs hL hH
        refine ⟨1, ⟨rest, (t, w) :: fin, nm2, outb2⟩, ?_, rfl,
          finishedMono_insert fin t w hfin2, ?_⟩
        · exact stepIter_one selfB otherB op ordering _ _ hstepEq
        · rw [lookup_cons_self]
          rfl

theorem rootPointer_lt (b : Bdd) (hb : WfDiagram b) :
    b.rootPointer.index < b.nodes.length := by
  have h1 : 1 < b.nodes.length := by
    rcases List.get?_eq_some.1 hb.2.1 with ⟨hlt, _⟩
    exact hlt
  unfold Bdd.rootPointer Bdd.isFalse Bdd.isTrue Bdd.size
  by_cases h2 : b.nodes.length = 2
  · simp [h2]
  · have hf : (b.nodes.length == 1) = false := by
      simp
      omega
    have ht : (b.nodes.length == 2) = false := by
      simp
      omega
    rw [hf, ht]
    simp
    omega

theorem applyRun_of_stepIter (selfB otherB : Bdd)
    (op : Option Bool → Option Bool → Option Bool) (ordering : Int → Option Nat)
    (k : Nat) :
    ∀ (m : Nat) (st st2 : ApplyState),
      stepIter selfB otherB op ordering k st = some st2 →
      applyRun selfB otherB op ordering (k + m) st =
        applyRun selfB otherB op ordering m st2 := by
  induction k with
  | zero =>
    intro m st st2 h
    cases h
    rw [Nat.zero_add]
  | succ j ih =>
    intro m st st2 h
    rw [stepIter] at h
    have hadd : j + 1 + m = (j + m) + 1 := by omega
    rw [hadd, applyRun]
    rcases hstep : applyStep selfB otherB op ordering st with _ | _ | stx <;>
      rw [hstep] at h
    · cases h
    · cases h
    · exact ih m stx st2 h

/-- C8 amended: under the conditions the library's constructors and the
ordering builder actually establish — both diagrams have the two
sentinel terminal slots and strictly downward-pointing internal nodes,
the ordering resolves the sentinel and ranks every internal-node
variable strictly above it, and the operator is total on two terminal
values — the `apply` worklist loop always reaches an empty stack: some
amount of fuel makes the fuelled run return a finished diagram.
Without the sentinel-last condition the loop can diverge (see the
counterexample), even though rank lookups all succeed. -/
theorem c8_apply_terminates (selfB otherB : Bdd)
    (op : Option Bool → Option Bool → Option Bool) (ordering : Int → Option Nat)
    (s : Nat) (hA : WfDiagram selfB) (hB : WfDiagram otherB)
    (hOA : OrderingBelow ordering s selfB) (hOB : OrderingBelow ordering s otherB)
    (hs : ordering sentinelName = some s)
    (hop : ∀ a b : Bool, (op (some a) (some b)).isSome = true) :
    ∃ (fuel : Nat) (bdd : Bdd),
      Bdd.applyFuel selfB otherB op ordering fuel = ApplyRunRes.finished bdd := by
  have hroot : TaskOK selfB otherB ⟨selfB.rootPointer, otherB.rootPointer⟩ :=
    ⟨rootPointer_lt selfB hA, rootPointer_lt otherB hB⟩
  obtain ⟨k, st2, hiter, hstack2, _, _⟩ :=
    runPop selfB otherB op ordering s hA hB hOA hOB hs hop
      (taskRank ⟨selfB.rootPointer, otherB.rootPointer⟩) (applyInit selfB otherB)
      ⟨selfB.rootPointer, otherB.rootPointer⟩ [] rfl hroot (Nat.le_refl _)
  refine ⟨k + 1, st2.out, ?_⟩
  rw [Bdd.applyFuel,
    applyRun_of_stepIter selfB otherB op ordering k 1 (applyInit selfB otherB) st2 hiter]
  obtain ⟨stk2, fin2, nm2, outb2⟩ := st2
  have h2 : stk2 = [] := hstack2
  subst h2
  rw [applyRun, applyStep_nil]

theorem wfDiagram_of_check (b : Bdd) (h : wfDiagramCheck b = true) : WfDiagram b := by
  unfold wfDiagramCheck at h
  rw [Bool.and_eq_true, Bool.and_eq_true] at h
  obtain ⟨⟨h1, h2⟩, h3⟩ := h
  refine ⟨beq_iff_eq.1 h1, beq_iff_eq.1 h2, ?_⟩
  intro i n hget hi2
  have hi : i < b.nodes.length := (List.get?_eq_some.1 hget).1
  have hall := List.all_eq_true.1 h3 i (List.mem_range.2 hi)
  rw [if_pos hi2, hget] at hall
  rw [Bool.and_eq_true, decide_eq_true_iff, decide_eq_true_iff] at hall
  exact hall

theorem orderingBelow_of_check (ordering : Int → Option Nat) (s : Nat) (b : Bdd)
    (h : orderingBelowCheck ordering s b = true) : OrderingBelow ordering s b := by
  unfold orderingBelowCheck at h
  intro i n hget hi2
  have hi : i < b.nodes.length := (List.get?_eq_some.1 hget).1
  have hall := List.all_eq_true.1 h i (List.mem_range.2 hi)
  rw [if_pos hi2] at hall
  simp only [hget] at hall
  rcases ho : ordering n.var.name with _ | r
  · simp only [ho] at hall
    cases hall
  · simp only [ho, decide_eq_true_iff] at hall
    exact ⟨r, rfl, hall⟩

/-- C8 witness: AND of the diagrams for `[x]` and `[¬x]` under the
builder's ordering satisfies the hypotheses and terminates. -/
theorem c8_apply_terminates_witness :
    WfDiagram (Bdd.newVar ⟨1, 0⟩) ∧ WfDiagram (Bdd.newNotVar ⟨1, 0⟩) ∧
      OrderingBelow orderingX 1 (Bdd.newVar ⟨1, 0⟩) ∧
      OrderingBelow orderingX 1 (Bdd.newNotVar ⟨1, 0⟩) ∧
      orderingX sentinelName = some 1 ∧
      (∀ a b : Bool, (boolExprAnd (some a) (some b)).isSome = true) ∧
      ∃ (fuel : Nat) (bdd : Bdd),
        Bdd.applyFuel (Bdd.newVar ⟨1, 0⟩) (Bdd.newNotVar ⟨1, 0⟩) boolExprAnd orderingX
            fuel =
          ApplyRunRes.finished bdd :=
  ⟨wfDiagram_of_check _ (by decide), wfDiagram_of_check _ (by decide),
    orderingBelow_of_check orderingX 1 _ (by decide),
    orderingBelow_of_check orderingX 1 _ (by decide), by decide, by decide,
    c8_apply_terminates (Bdd.newVar ⟨1, 0⟩) (Bdd.newNotVar ⟨1, 0⟩) boolExprAnd orderingX 1
      (wfDiagram_of_check _ (by decide)) (wfDiagram_of_check _ (by decide))
      (orderingBelow_of_check orderingX 1 _ (by decide))
      (orderingBelow_of_check orderingX 1 _ (by decide)) (by decide) (by decide)⟩
